import Mathlib

/-!
Shallow embedding of the Quick Move Obsidian plugin (main.ts).

JavaScript strings are modelled as `List Char` (one element per UTF-16 code
unit; all strings manipulated by the plugin are element-wise operations, so
this is faithful). JS `indexOf`/`lastIndexOf` return `Int` with the `-1`
sentinel, and `substring` clamps negative indices to `0`, exactly as in
ECMAScript. `Date.now()` is a `Nat` parameter (milliseconds since epoch).
The Obsidian vault is modelled as the finite set of paths at which
`getAbstractFileByPath` answers positively; fallible host calls
(createFolder, read, create, rename, openFile) are driven by an explicit
failure oracle so that the try/catch structure of the commands can be
analysed.
-/

namespace QuickMove

/-- JS `String.prototype.lastIndexOf` for a single character: the greatest
index holding `c`, or `-1` when absent. -/
def jsLastIndexOf (c : Char) : List Char → Int
  | [] => -1
  | a :: s =>
    if jsLastIndexOf c s ≥ 0 then jsLastIndexOf c s + 1
    else if a = c then 0 else -1

/-- JS `String.prototype.indexOf` for a single character: the least index
holding `c`, or `-1` when absent. -/
def jsIndexOf (c : Char) : List Char → Int
  | [] => -1
  | a :: s =>
    if a = c then 0
    else if jsIndexOf c s ≥ 0 then jsIndexOf c s + 1 else -1

/-- JS `s.substring(i)`: negative starts clamp to `0`, starts past the end
clamp to the length. -/
def substringFrom (s : List Char) (i : Int) : List Char := s.drop i.toNat

/-- JS `s.substring(0, i)`: negative ends clamp to `0`. -/
def substringTo (s : List Char) (i : Int) : List Char := s.take i.toNat

/-- Little-endian digits of `n` in base `b`, with explicit fuel so that the
definition is structural (fuel `n` is always enough, see `digitsAux_eq`). -/
def digitsAux (b : Nat) : Nat → Nat → List Nat
  | _, 0 => []
  | 0, _ + 1 => []
  | fuel + 1, n + 1 => (n + 1) % b :: digitsAux b fuel ((n + 1) / b)

/-- Little-endian digits of `n` in base `b`. -/
def jsDigits (b n : Nat) : List Nat := digitsAux b n n

/-- The digit characters used by JS `Number.prototype.toString(radix)`:
`0`-`9` then `a`-`z`. -/
def jsDigitChar (d : Nat) : Char :=
  if d < 10 then Char.ofNat (48 + d) else Char.ofNat (87 + d)

/-- JS `n.toString(b)` for a non-negative integer `n` and radix `b`:
big-endian digit characters, `"0"` for zero. -/
def jsToString (b n : Nat) : List Char :=
  if n = 0 then ['0'] else ((jsDigits b n).map jsDigitChar).reverse

/-- `Math.floor(Date.now() / 1000).toString(36).split('').reverse().join('')`:
the "cepoch" prefix (base-36 seconds since epoch, reversed). -/
def cepochOf (nowMs : Nat) : List Char := (jsToString 36 (nowMs / 1000)).reverse

/-- `processFilenameWithPrefix`: the extension part
(`lastDotIndex > 0 ? originalName.substring(lastDotIndex) : ""`). -/
def extOf (originalName : List Char) : List Char :=
  let lastDotIndex := jsLastIndexOf '.' originalName
  if lastDotIndex > 0 then substringFrom originalName lastDotIndex else []

/-- `processFilenameWithPrefix`: the `nameWithoutExt` part
(`lastDotIndex > 0 ? originalName.substring(0, lastDotIndex) : originalName`). -/
def stemOf (originalName : List Char) : List Char :=
  let lastDotIndex := jsLastIndexOf '.' originalName
  if lastDotIndex > 0 then substringTo originalName lastDotIndex else originalName

/-- `processFilenameWithPrefix`: the `baseName` part — the stem with the
first `_`-terminated prefix segment stripped when one is present at a
positive index. -/
def prefixBaseName (originalName : List Char) : List Char :=
  let nameWithoutExt := stemOf originalName
  let underscoreIndex := jsIndexOf '_' nameWithoutExt
  if underscoreIndex > 0 then substringFrom nameWithoutExt (underscoreIndex + 1)
  else nameWithoutExt

/-- `processFilenameWithPrefix(originalName, addPrefix)` at time `nowMs`
(milliseconds since epoch): returns the name unchanged when the prefix
feature is off, otherwise ``cepoch ++ "_" ++ baseName ++ extension``. -/
def processFilenameWithPrefix (nowMs : Nat) (originalName : List Char)
    (addPrefix : Bool) : List Char :=
  if !addPrefix then originalName
  else cepochOf nowMs ++ '_' :: (prefixBaseName originalName ++ extOf originalName)

/-- `duplicateFileToFolder`'s conflict parse:
`processedFileName.substring(0, processedFileName.lastIndexOf(".")) || processedFileName`
(`||` falls back exactly when the substring is the empty string). -/
def dupBaseName (processedFileName : List Char) : List Char :=
  let s := substringTo processedFileName (jsLastIndexOf '.' processedFileName)
  if s = [] then processedFileName else s

/-- `duplicateFileToFolder`'s conflict parse:
`processedFileName.substring(processedFileName.lastIndexOf(".")) || ""`. -/
def dupExtension (processedFileName : List Char) : List Char :=
  let s := substringFrom processedFileName (jsLastIndexOf '.' processedFileName)
  if s = [] then [] else s

/-- ``targetFolder ? `${targetFolder}/${name}` : name`` — the destination
path builder used by both commands. -/
def joinPath (targetFolder name : List Char) : List Char :=
  if targetFolder = [] then name else targetFolder ++ '/' :: name

/-- ```${baseName} ${counter}${extension}``` — the numbered alternative
tried by the conflict loop. -/
def numberedName (baseName extension : List Char) (counter : Nat) : List Char :=
  baseName ++ ' ' :: (jsToString 10 counter ++ extension)

/-- The `k`-th numbered candidate path tried by `duplicateFileToFolder`. -/
def dupCandidate (targetFolder processedFileName : List Char) (k : Nat) : List Char :=
  joinPath targetFolder
    (numberedName (dupBaseName processedFileName) (dupExtension processedFileName) k)

/-! ### Digit-string lemmas -/

theorem digitsAux_eq (b : Nat) (hb : 2 ≤ b) :
    ∀ fuel n, n ≤ fuel → digitsAux b fuel n = Nat.digits b n := by
  intro fuel
  induction fuel with
  | zero =>
    intro n hn
    interval_cases n
    simp [digitsAux]
  | succ f ih =>
    intro n hn
    match n with
    | 0 => simp [digitsAux]
    | m + 1 =>
      have hdiv : (m + 1) / b ≤ f := by
        have h1 : (m + 1) / b < m + 1 := Nat.div_lt_self (Nat.succ_pos m) hb
        omega
      rw [Nat.digits_def' (by omega : 1 < b) (Nat.succ_pos m)]
      show (m + 1) % b :: digitsAux b f ((m + 1) / b) = _
      rw [ih _ hdiv]

theorem jsDigits_eq (b n : Nat) (hb : 2 ≤ b) : jsDigits b n = Nat.digits b n :=
  digitsAux_eq b hb n n (Nat.le_refl n)

theorem jsDigitChar_injOn :
    ∀ d₁, d₁ < 36 → ∀ d₂, d₂ < 36 → jsDigitChar d₁ = jsDigitChar d₂ → d₁ = d₂ := by
  decide

theorem jsDigitChar_ne_special :
    ∀ d, d < 36 → jsDigitChar d ≠ '_' ∧ jsDigitChar d ≠ '.' ∧ jsDigitChar d ≠ '/' := by
  decide

theorem map_jsDigitChar_inj :
    ∀ l₁ l₂ : List Nat, (∀ d ∈ l₁, d < 36) → (∀ d ∈ l₂, d < 36) →
      l₁.map jsDigitChar = l₂.map jsDigitChar → l₁ = l₂ := by
  intro l₁
  induction l₁ with
  | nil =>
    intro l₂ _ _ h
    cases l₂ with
    | nil => rfl
    | cons b t => simp at h
  | cons a t ih =>
    intro l₂ h₁ h₂ h
    cases l₂ with
    | nil => simp at h
    | cons b u =>
      simp only [List.map_cons, List.cons.injEq] at h
      have ha : a < 36 := h₁ a (List.mem_cons_self a t)
      have hb : b < 36 := h₂ b (List.mem_cons_self b u)
      have hab : a = b := jsDigitChar_injOn a ha b hb h.1
      have ht : t = u :=
        ih u (fun d hd => h₁ d (List.mem_cons_of_mem a hd))
          (fun d hd => h₂ d (List.mem_cons_of_mem b hd)) h.2
      rw [hab, ht]

theorem jsToString_inj (b m n : Nat) (hb2 : 2 ≤ b) (hb36 : b ≤ 36)
    (h : jsToString b m = jsToString b n) : m = n := by
  have hlt : ∀ k : Nat, ∀ d ∈ Nat.digits b k, d < 36 := fun k d hd =>
    Nat.lt_of_lt_of_le (Nat.digits_lt_base (by omega) hd) hb36
  unfold jsToString at h
  by_cases hm : m = 0 <;> by_cases hn : n = 0
  · omega
  · exfalso
    rw [if_pos hm, if_neg hn] at h
    have hlen := congrArg List.length h
    simp [jsDigits_eq b n hb2] at hlen
    rcases List.length_eq_one.mp hlen.symm with ⟨d, hd⟩
    rw [jsDigits_eq b n hb2, hd] at h
    simp at h
    have hd36 : d < 36 := hlt n d (hd ▸ List.mem_singleton_self d)
    have h0 : (0 : Nat) < 36 := by omega
    have : (0 : Nat) = d := jsDigitChar_injOn 0 h0 d hd36 (by
      have : jsDigitChar 0 = '0' := by decide
      rw [this, h])
    apply hn
    have := congrArg (Nat.ofDigits b) hd
    rw [Nat.ofDigits_digits] at this
    simp [← this.symm, Nat.ofDigits] at *
    omega
  · exfalso
    rw [if_neg hm, if_pos hn] at h
    have hlen := congrArg List.length h
    simp [jsDigits_eq b m hb2] at hlen
    rcases List.length_eq_one.mp hlen with ⟨d, hd⟩
    rw [jsDigits_eq b m hb2, hd] at h
    simp at h
    have hd36 : d < 36 := hlt m d (hd ▸ List.mem_singleton_self d)
    have h0 : (0 : Nat) < 36 := by omega
    have : d = 0 := jsDigitChar_injOn d hd36 0 h0 (by
      have h00 : jsDigitChar 0 = '0' := by decide
      rw [h00, h])
    apply hm
    have hh := congrArg (Nat.ofDigits b) hd
    rw [Nat.ofDigits_digits] at hh
    rw [this] at hd
    have := congrArg (Nat.ofDigits b) hd
    rw [Nat.ofDigits_digits] at this
    simpa [Nat.ofDigits] using this
  · rw [if_neg hm, if_neg hn, jsDigits_eq b m hb2, jsDigits_eq b n hb2] at h
    have h2 := List.reverse_injective h
    have h3 := map_jsDigitChar_inj _ _ (hlt m) (hlt n) h2
    exact Nat.digits_inj_iff.mp h3

theorem jsToString_ne_nil (b n : Nat) (hb : 2 ≤ b) : jsToString b n ≠ [] := by
  unfold jsToString
  by_cases hn : n = 0
  · simp [hn]
  · rw [if_neg hn, jsDigits_eq b n hb]
    simp [Nat.digits_ne_nil_iff_ne_zero.mpr hn]

theorem mem_jsToString_lt (b n : Nat) (hb2 : 2 ≤ b) (hb36 : b ≤ 36) :
    ∀ c ∈ jsToString b n, c = '0' ∨ ∃ d, d < 36 ∧ c = jsDigitChar d := by
  intro c hc
  unfold jsToString at hc
  by_cases hn : n = 0
  · rw [if_pos hn] at hc
    simp at hc
    exact Or.inl hc
  · rw [if_neg hn, jsDigits_eq b n hb2] at hc
    rw [List.mem_reverse, List.mem_map] at hc
    rcases hc with ⟨d, hd, hdc⟩
    exact Or.inr ⟨d, Nat.lt_of_lt_of_le (Nat.digits_lt_base (by omega) hd) hb36, hdc.symm⟩

theorem cepochOf_ne_nil (nowMs : Nat) : cepochOf nowMs ≠ [] := by
  unfold cepochOf
  simp [jsToString_ne_nil 36 (nowMs / 1000) (by omega)]

theorem cepochOf_not_special (nowMs : Nat) :
    '_' ∉ cepochOf nowMs ∧ '.' ∉ cepochOf nowMs ∧ '/' ∉ cepochOf nowMs := by
  have key : ∀ c ∈ cepochOf nowMs, c ≠ '_' ∧ c ≠ '.' ∧ c ≠ '/' := by
    intro c hc
    rw [cepochOf, List.mem_reverse] at hc
    rcases mem_jsToString_lt 36 (nowMs / 1000) (by omega) (by omega) c hc with h0 | ⟨d, hd, hdc⟩
    · rw [h0]; refine ⟨by decide, by decide, by decide⟩
    · rw [hdc]; exact jsDigitChar_ne_special d hd
  refine ⟨fun h => ((key _ h).1 rfl), fun h => ((key _ h).2.1 rfl), fun h => ((key _ h).2.2 rfl)⟩

/-! ### indexOf / lastIndexOf lemmas -/

theorem jsLastIndexOf_eq_neg_one (c : Char) (s : List Char) (h : c ∉ s) :
    jsLastIndexOf c s = -1 := by
  induction s with
  | nil => rfl
  | cons a t ih =>
    have hat : c ∉ t := fun hx => h (List.mem_cons_of_mem a hx)
    have hac : a ≠ c := fun hx => h (hx ▸ List.mem_cons_self a t)
    rw [jsLastIndexOf, ih hat]
    simp [hac]

theorem jsLastIndexOf_append_cons (c : Char) (A Y : List Char) (hY : c ∉ Y) :
    jsLastIndexOf c (A ++ c :: Y) = (A.length : Int) := by
  induction A with
  | nil =>
    rw [List.nil_append, jsLastIndexOf, jsLastIndexOf_eq_neg_one c Y hY]
    simp
  | cons a t ih =>
    rw [List.cons_append, jsLastIndexOf, ih]
    have : ((t.length : Int)) ≥ 0 := Int.natCast_nonneg t.length
    simp only [this, if_pos]
    simp

theorem jsLastIndexOf_decomp (c : Char) (s : List Char) (h : c ∈ s) :
    ∃ A Y, s = A ++ c :: Y ∧ c ∉ Y ∧ jsLastIndexOf c s = (A.length : Int) := by
  induction s with
  | nil => cases h
  | cons a t ih =>
    by_cases hct : c ∈ t
    · rcases ih hct with ⟨A, Y, hs, hY, _⟩
      exact ⟨a :: A, Y, by rw [hs, List.cons_append], hY,
        by rw [hs, ← List.cons_append, jsLastIndexOf_append_cons c (a :: A) Y hY]⟩
    · have hac : a = c := by
        rcases List.mem_cons.mp h with h1 | h2
        · exact h1.symm
        · exact absurd h2 hct
      refine ⟨[], t, by rw [hac, List.nil_append], hct, ?_⟩
      rw [hac]
      have := jsLastIndexOf_append_cons c [] t hct
      rw [List.nil_append] at this
      rw [this]

theorem jsIndexOf_eq_neg_one (c : Char) (s : List Char) (h : c ∉ s) :
    jsIndexOf c s = -1 := by
  induction s with
  | nil => rfl
  | cons a t ih =>
    have hat : c ∉ t := fun hx => h (List.mem_cons_of_mem a hx)
    have hac : a ≠ c := fun hx => h (hx ▸ List.mem_cons_self a t)
    rw [jsIndexOf, ih hat]
    simp [hac]

theorem jsIndexOf_append_cons (c : Char) (A Y : List Char) (hA : c ∉ A) :
    jsIndexOf c (A ++ c :: Y) = (A.length : Int) := by
  induction A with
  | nil =>
    rw [List.nil_append, jsIndexOf]
    simp
  | cons a t ih =>
    have hat : c ∉ t := fun hx => hA (List.mem_cons_of_mem a hx)
    have hac : a ≠ c := fun hx => hA (hx ▸ List.mem_cons_self a t)
    rw [List.cons_append, jsIndexOf, ih hat]
    have : ((t.length : Int)) ≥ 0 := Int.natCast_nonneg t.length
    simp only [hac, if_neg, this, if_pos]
    simp [hac]

theorem jsIndexOf_decomp (c : Char) (s : List Char) (h : c ∈ s) :
    ∃ A Y, s = A ++ c :: Y ∧ c ∉ A ∧ jsIndexOf c s = (A.length : Int) := by
  induction s with
  | nil => cases h
  | cons a t ih =>
    by_cases hac : a = c
    · refine ⟨[], t, by rw [hac, List.nil_append], List.not_mem_nil c, ?_⟩
      rw [hac]
      have := jsIndexOf_append_cons c [] t (List.not_mem_nil c)
      rw [List.nil_append] at this
      rw [this]
    · have hct : c ∈ t := by
        rcases List.mem_cons.mp h with h1 | h2
        · exact absurd h1.symm hac
        · exact h2
      rcases ih hct with ⟨A, Y, hs, hA, _⟩
      have hA' : c ∉ a :: A := by
        intro hx
        rcases List.mem_cons.mp hx with h1 | h2
        · exact hac h1.symm
        · exact hA h2
      exact ⟨a :: A, Y, by rw [hs, List.cons_append], hA',
        by rw [hs, ← List.cons_append, jsIndexOf_append_cons c (a :: A) Y hA']⟩

/-! ### substring lemmas -/

theorem substringFrom_natCast (s : List Char) (k : Nat) :
    substringFrom s (k : Int) = s.drop k := by
  simp [substringFrom]

theorem substringTo_natCast (s : List Char) (k : Nat) :
    substringTo s (k : Int) = s.take k := by
  simp [substringTo]

theorem substringFrom_neg_one (s : List Char) : substringFrom s (-1) = s := rfl

theorem substringTo_neg_one (s : List Char) : substringTo s (-1) = [] := rfl

theorem take_append_cons (A : List Char) (c : Char) (Y : List Char) :
    (A ++ c :: Y).take (A.length + 1) = A ++ [c] := by
  have h : A ++ c :: Y = (A ++ [c]) ++ Y := by simp
  rw [h]
  have hl : (A ++ [c]).length = A.length + 1 := by simp
  exact List.take_left' hl

theorem drop_append_cons (A : List Char) (c : Char) (Y : List Char) :
    (A ++ c :: Y).drop (A.length + 1) = Y := by
  have h : A ++ c :: Y = (A ++ [c]) ++ Y := by simp
  rw [h]
  have hl : (A ++ [c]).length = A.length + 1 := by simp
  exact List.drop_left' hl

/-! ### The shape invariant preserved by the prefix transform -/

/-- The possible shapes of `baseName ++ extension` as produced by
`processFilenameWithPrefix`: either the extension is empty and the base has
no dot, or the extension is empty and the base is a dot-initial name whose
tail has neither dot nor underscore, or the extension is a dot followed by
dot-free characters. -/
def GoodParse (B E : List Char) : Prop :=
  ('.' ∉ B ∧ E = []) ∨
  ((∃ B₁, B = '.' :: B₁ ∧ '.' ∉ B₁ ∧ '_' ∉ B₁) ∧ E = []) ∨
  (∃ E₁, E = '.' :: E₁ ∧ '.' ∉ E₁)

theorem extOf_of_no_dot (name : List Char) (h : '.' ∉ name) :
    extOf name = [] ∧ stemOf name = name := by
  unfold extOf stemOf
  rw [jsLastIndexOf_eq_neg_one '.' name h]
  norm_num

theorem extOf_of_dot_at_zero (Y : List Char) (hY : '.' ∉ Y) :
    extOf ('.' :: Y) = [] ∧ stemOf ('.' :: Y) = '.' :: Y := by
  unfold extOf stemOf
  have h := jsLastIndexOf_append_cons '.' [] Y hY
  rw [List.nil_append] at h
  rw [h]
  norm_num

theorem extOf_of_dot_at_pos (A Y : List Char) (hA : A ≠ []) (hY : '.' ∉ Y) :
    extOf (A ++ '.' :: Y) = '.' :: Y ∧ stemOf (A ++ '.' :: Y) = A := by
  unfold extOf stemOf
  rw [jsLastIndexOf_append_cons '.' A Y hY]
  have hpos : (0 : Int) < (A.length : Int) := by
    have := List.length_pos.mpr hA
    omega
  rw [if_pos hpos, if_pos hpos, substringFrom_natCast, substringTo_natCast,
    List.drop_left, List.take_left]
  exact ⟨rfl, rfl⟩

/-- The `underscoreIndex`/`baseName` step of `processFilenameWithPrefix`,
acting on the stem. -/
def stripFirstSeg (s : List Char) : List Char :=
  if jsIndexOf '_' s > 0 then substringFrom s (jsIndexOf '_' s + 1) else s

theorem prefixBaseName_eq (name : List Char) :
    prefixBaseName name = stripFirstSeg (stemOf name) := rfl

theorem stripFirstSeg_no_underscore (s : List Char) (h : '_' ∉ s) :
    stripFirstSeg s = s := by
  unfold stripFirstSeg
  rw [jsIndexOf_eq_neg_one '_' s h]
  norm_num

theorem stripFirstSeg_at_zero (Y : List Char) : stripFirstSeg ('_' :: Y) = '_' :: Y := by
  unfold stripFirstSeg
  have h := jsIndexOf_append_cons '_' [] Y (List.not_mem_nil '_')
  rw [List.nil_append] at h
  rw [h]
  norm_num

theorem stripFirstSeg_at_pos (A Y : List Char) (hA : A ≠ []) (hAu : '_' ∉ A) :
    stripFirstSeg (A ++ '_' :: Y) = Y := by
  unfold stripFirstSeg
  rw [jsIndexOf_append_cons '_' A Y hAu]
  have hpos : (0 : Int) < (A.length : Int) := by
    have := List.length_pos.mpr hA
    omega
  rw [if_pos hpos]
  have hcast : ((A.length : Int) + 1) = ((A.length + 1 : Nat) : Int) := by push_cast; ring
  rw [hcast, substringFrom_natCast, drop_append_cons]

theorem parse_shape (name : List Char) :
    GoodParse (prefixBaseName name) (extOf name) := by
  by_cases hdot : '.' ∈ name
  · rcases jsLastIndexOf_decomp '.' name hdot with ⟨A, Y, hs, hY, _⟩
    by_cases hA : A = []
    · -- the only dot is at index 0
      rw [hA, List.nil_append] at hs
      subst hs
      have hext := extOf_of_dot_at_zero Y hY
      rw [prefixBaseName_eq, hext.2, hext.1]
      by_cases hu : '_' ∈ '.' :: Y
      · rcases jsIndexOf_decomp '_' ('.' :: Y) hu with ⟨A', Y', hs', hA', _⟩
        cases A' with
        | nil =>
          rw [List.nil_append] at hs'
          have := congrArg List.head? hs'
          simp at this
        | cons a A'' =>
          rw [List.cons_append] at hs'
          have h1 : ('.' : Char) = a := (List.cons.injEq '.' Y a (A'' ++ '_' :: Y') ▸ hs').1
          have h2 : Y = A'' ++ '_' :: Y' := (List.cons.injEq '.' Y a (A'' ++ '_' :: Y') ▸ hs').2
          have hY' : '.' ∉ Y' := fun hx =>
            hY (h2 ▸ List.mem_append_right A'' (List.mem_cons_of_mem '_' hx))
          rw [← List.cons_append] at hs'
          rw [hs', stripFirstSeg_at_pos (a :: A'') Y' (by simp) hA']
          exact Or.inl ⟨hY', rfl⟩
      · rw [stripFirstSeg_no_underscore _ hu]
        refine Or.inr (Or.inl ⟨⟨Y, rfl, hY, fun hx => hu (List.mem_cons_of_mem '.' hx)⟩, rfl⟩)
    · -- the last dot is at a positive index: extension comes from there
      subst hs
      have hext := extOf_of_dot_at_pos A Y hA hY
      rw [hext.1]
      exact Or.inr (Or.inr ⟨Y, rfl, hY⟩)
  · -- no dot at all
    have hext := extOf_of_no_dot name hdot
    rw [prefixBaseName_eq, hext.2, hext.1]
    by_cases hu : '_' ∈ name
    · rcases jsIndexOf_decomp '_' name hu with ⟨A', Y', hs', hA', _⟩
      cases A' with
      | nil =>
        rw [List.nil_append] at hs'
        rw [hs', stripFirstSeg_at_zero Y']
        exact Or.inl ⟨hs' ▸ hdot, rfl⟩
      | cons a A'' =>
        have hY' : '.' ∉ Y' := fun hx =>
          hdot (hs' ▸ List.mem_append_right _ (List.mem_cons_of_mem '_' hx))
        rw [hs', stripFirstSeg_at_pos (a :: A'') Y' (by simp) hA']
        exact Or.inl ⟨hY', rfl⟩
    · rw [stripFirstSeg_no_underscore _ hu]
      exact Or.inl ⟨hdot, rfl⟩

theorem parse_of_prefixed (c B E : List Char) (hc : c ≠ []) (hcu : '_' ∉ c)
    (hcd : '.' ∉ c) (hBE : GoodParse B E) :
    prefixBaseName (c ++ '_' :: (B ++ E)) ++ extOf (c ++ '_' :: (B ++ E)) = B ++ E := by
  rcases hBE with ⟨hB, hE⟩ | ⟨⟨B₁, hB, hB₁d, hB₁u⟩, hE⟩ | ⟨E₁, hE, hE₁⟩
  · -- extension empty, dot-free base: the reparsed name has no dot at all
    subst hE
    rw [List.append_nil]
    have hnd : '.' ∉ c ++ '_' :: B := by
      intro hx
      rcases List.mem_append.mp hx with h1 | h2
      · exact hcd h1
      · rcases List.mem_cons.mp h2 with h3 | h4
        · exact absurd h3 (by decide)
        · exact hB h4
    have hext := extOf_of_no_dot _ hnd
    rw [prefixBaseName_eq, hext.1, hext.2, List.append_nil,
      stripFirstSeg_at_pos c B hc hcu]
  · -- extension empty, base `.B₁`: the reparse finds the dot of the base
    subst hE hB
    rw [List.append_nil]
    have hform : c ++ '_' :: '.' :: B₁ = (c ++ ['_']) ++ '.' :: B₁ := by simp
    have hB₁ : '.' ∉ B₁ := hB₁d
    have hext := extOf_of_dot_at_pos (c ++ ['_']) B₁ (by simp) hB₁
    rw [prefixBaseName_eq, hform, hext.1, hext.2]
    have hc' : stripFirstSeg (c ++ ['_']) = [] := stripFirstSeg_at_pos c [] hc hcu
    rw [hc', List.nil_append]
  · -- dot-initial, dot-free extension: the reparse finds exactly it
    subst hE
    have hform : c ++ '_' :: (B ++ '.' :: E₁) = (c ++ '_' :: B) ++ '.' :: E₁ := by simp
    have hext := extOf_of_dot_at_pos (c ++ '_' :: B) E₁ (by simp) hE₁
    rw [prefixBaseName_eq, hform, hext.1, hext.2, stripFirstSeg_at_pos c B hc hcu]

theorem processFilename_shape (nowMs : Nat) (name : List Char) :
    processFilenameWithPrefix nowMs name true =
      cepochOf nowMs ++ '_' :: (prefixBaseName name ++ extOf name) := rfl

/-! ### The conflict-resolution loop of duplicateFileToFolder -/

/-- The `while (getAbstractFileByPath(newPath))` loop: `occ` is the set of
occupied vault paths, `newPath`/`counter` are the loop variables, and `fuel`
bounds the number of existence checks (a fuel of `occ.length + 2` is proven
sufficient in `dupResolvePath_spec`). -/
def resolveLoop (occ : List (List Char)) (targetFolder base ext : List Char) :
    List Char → Nat → Nat → Option (List Char)
  | _, _, 0 => none
  | newPath, counter, fuel + 1 =>
    if newPath ∈ occ then
      resolveLoop occ targetFolder base ext
        (joinPath targetFolder (numberedName base ext counter)) (counter + 1) fuel
    else some newPath

/-- The conflict-free destination path computed by `duplicateFileToFolder`
for the processed file name, starting from ``targetFolder/processedFileName``
with the counter at 1. -/
def dupResolvePath (occ : List (List Char)) (targetFolder processedFileName : List Char) :
    Option (List Char) :=
  resolveLoop occ targetFolder (dupBaseName processedFileName)
    (dupExtension processedFileName)
    (joinPath targetFolder processedFileName) 1 (occ.length + 2)

theorem numberedName_inj (base ext : List Char) (k₁ k₂ : Nat)
    (h : numberedName base ext k₁ = numberedName base ext k₂) : k₁ = k₂ := by
  unfold numberedName at h
  have h1 : ' ' :: (jsToString 10 k₁ ++ ext) = ' ' :: (jsToString 10 k₂ ++ ext) :=
    List.append_cancel_left h
  have h2 : jsToString 10 k₁ ++ ext = jsToString 10 k₂ ++ ext := by
    injection h1
  have h3 : jsToString 10 k₁ = jsToString 10 k₂ := List.append_cancel_right h2
  exact jsToString_inj 10 k₁ k₂ (by omega) (by omega) h3

theorem joinPath_inj (targetFolder s₁ s₂ : List Char)
    (h : joinPath targetFolder s₁ = joinPath targetFolder s₂) : s₁ = s₂ := by
  unfold joinPath at h
  by_cases ht : targetFolder = []
  · rwa [if_pos ht, if_pos ht] at h
  · rw [if_neg ht, if_neg ht] at h
    have := List.append_cancel_left h
    injection this

theorem dupCandidate_inj (targetFolder processedFileName : List Char) (k₁ k₂ : Nat)
    (h : dupCandidate targetFolder processedFileName k₁ =
         dupCandidate targetFolder processedFileName k₂) : k₁ = k₂ :=
  numberedName_inj _ _ k₁ k₂ (joinPath_inj targetFolder _ _ h)

/-- Pigeonhole: among any `occ.length + 1` consecutive counters there is a
candidate path not occupied. -/
theorem exists_free_candidate (occ : List (List Char))
    (targetFolder processedFileName : List Char) (counter : Nat) :
    ∃ k, counter ≤ k ∧ k ≤ counter + occ.length ∧
      dupCandidate targetFolder processedFileName k ∉ occ := by
  by_contra hcon
  push_neg at hcon
  have hmaps : ∀ k ∈ Finset.Icc counter (counter + occ.length),
      dupCandidate targetFolder processedFileName k ∈ occ.toFinset := by
    intro k hk
    rw [Finset.mem_Icc] at hk
    rw [List.mem_toFinset]
    exact hcon k hk.1 hk.2
  have hinj : Set.InjOn (dupCandidate targetFolder processedFileName)
      (Finset.Icc counter (counter + occ.length)) := fun k₁ _ k₂ _ he =>
    dupCandidate_inj targetFolder processedFileName k₁ k₂ he
  have hcard := Finset.card_le_card_of_injOn _ hmaps hinj
  rw [Nat.card_Icc] at hcard
  have hlen := List.toFinset_card_le occ
  omega

/-- Any returned path is free, and the loop tries the initial path first and
then the numbered candidates in order, each counter one more than the last. -/
theorem resolveLoop_spec (occ : List (List Char)) (targetFolder base ext : List Char) :
    ∀ fuel counter newPath p,
      resolveLoop occ targetFolder base ext newPath counter fuel = some p →
      p ∉ occ ∧
        (p = newPath ∨
          (newPath ∈ occ ∧
            ∃ k, counter ≤ k ∧ p = joinPath targetFolder (numberedName base ext k) ∧
              ∀ j, counter ≤ j → j < k →
                joinPath targetFolder (numberedName base ext j) ∈ occ)) := by
  intro fuel
  induction fuel with
  | zero => intro counter newPath p h; cases h
  | succ f ih =>
    intro counter newPath p h
    rw [resolveLoop] at h
    by_cases hmem : newPath ∈ occ
    · rw [if_pos hmem] at h
      rcases ih (counter + 1) _ p h with ⟨hfree, hcase⟩
      refine ⟨hfree, Or.inr ⟨hmem, ?_⟩⟩
      rcases hcase with heq | ⟨hcmem, k, hk1, hk2, hk3⟩
      · exact ⟨counter, Nat.le_refl counter, heq, fun j hj1 hj2 => absurd hj1 (by omega)⟩
      · refine ⟨k, by omega, hk2, fun j hj1 hj2 => ?_⟩
        by_cases hjc : j = counter
        · rw [hjc]; exact hcmem
        · exact hk3 j (by omega) hj2
    · rw [if_neg hmem] at h
      have : newPath = p := by injection h
      exact ⟨this ▸ hmem, Or.inl this.symm⟩

/-- The loop returns a result whenever a free candidate exists within the
remaining fuel (or the current path is already free). -/
theorem resolveLoop_isSome (occ : List (List Char)) (targetFolder base ext : List Char) :
    ∀ fuel counter newPath,
      (newPath ∉ occ ∨
        ∃ k, counter ≤ k ∧ k < counter + fuel ∧
          joinPath targetFolder (numberedName base ext k) ∉ occ) →
      (resolveLoop occ targetFolder base ext newPath counter (fuel + 1)).isSome := by
  intro fuel
  induction fuel with
  | zero =>
    intro counter newPath h
    have hfree : newPath ∉ occ := by
      rcases h with h1 | ⟨k, hk1, hk2, _⟩
      · exact h1
      · omega
    rw [resolveLoop, if_neg hfree]
    rfl
  | succ f ih =>
    intro counter newPath h
    by_cases hmem : newPath ∈ occ
    · rw [resolveLoop, if_pos hmem]
      apply ih (counter + 1)
      rcases h with h1 | ⟨k, hk1, hk2, hk3⟩
      · exact absurd hmem h1
      · by_cases hkc : k = counter
        · exact Or.inl (hkc ▸ hk3)
        · exact Or.inr ⟨k, by omega, by omega, hk3⟩
    · rw [resolveLoop, if_neg hmem]
      rfl

/-- `duplicateFileToFolder`'s conflict loop always terminates with a free
path, tried in order: the plain destination first, then the numbered
candidates with the counter increasing one by one from 1. -/
theorem dupResolvePath_spec (occ : List (List Char))
    (targetFolder processedFileName : List Char) :
    ∃ p, dupResolvePath occ targetFolder processedFileName = some p ∧ p ∉ occ ∧
      (p = joinPath targetFolder processedFileName ∨
        (joinPath targetFolder processedFileName ∈ occ ∧
          ∃ k, 1 ≤ k ∧ p = dupCandidate targetFolder processedFileName k ∧
            ∀ j, 1 ≤ j → j < k → dupCandidate targetFolder processedFileName j ∈ occ)) := by
  have hterm := resolveLoop_isSome occ targetFolder (dupBaseName processedFileName)
    (dupExtension processedFileName) (occ.length + 1) 1
    (joinPath targetFolder processedFileName) ?side
  case side =>
    rcases exists_free_candidate occ targetFolder processedFileName 1 with ⟨k, hk1, hk2, hk3⟩
    exact Or.inr ⟨k, hk1, by omega, hk3⟩
  rw [Option.isSome_iff_exists] at hterm
  rcases hterm with ⟨p, hp⟩
  have hp' : dupResolvePath occ targetFolder processedFileName = some p := hp
  rcases resolveLoop_spec occ targetFolder (dupBaseName processedFileName)
      (dupExtension processedFileName) (occ.length + 2) 1
      (joinPath targetFolder processedFileName) p hp' with ⟨hfree, hcase⟩
  exact ⟨p, hp', hfree, hcase⟩

/-! ### The vault and the command callbacks -/

/-- The vault as seen through `getAbstractFileByPath`: the list of paths
(files and folders) at which it answers positively. -/
structure Vault where
  entries : List (List Char)
deriving DecidableEq, Repr

/-- The active file returned by `workspace.getActiveFile`: its vault path,
its name, and whether it is a `TFile`. -/
structure ActiveFile where
  path : List Char
  name : List Char
  isTFile : Bool
deriving DecidableEq, Repr

/-- Failure oracle for the awaited host calls: `some msg` means the call
throws an error with that message. -/
structure HostFail where
  createFolder : Option (List Char)
  readFile : Option (List Char)
  createFile : Option (List Char)
  rename : Option (List Char)
  openFile : Option (List Char)
deriving DecidableEq, Repr

/-- What a command invocation produced: the vault afterwards, the `Notice`s
shown, and the `console.error` log lines. -/
structure CmdResult where
  vault : Vault
  notices : List (List Char)
  logs : List (List Char)
deriving DecidableEq, Repr

/-- `ensureFolderExists`: no-op on the root or an existing path, otherwise
`createFolder` (which may throw). -/
def ensureFolderExists (hf : HostFail) (v : Vault) (folderPath : List Char) :
    Except (Vault × List Char) Vault :=
  if folderPath = [] then Except.ok v
  else if folderPath ∈ v.entries then Except.ok v
  else
    match hf.createFolder with
    | some m => Except.error (v, m)
    | none => Except.ok ⟨folderPath :: v.entries⟩

/-- `fileManager.renameFile`: the file's old path disappears, the new one
appears. -/
def renameEntry (v : Vault) (oldPath newPath : List Char) : Vault :=
  ⟨newPath :: v.entries.erase oldPath⟩

/-- The `try`-block of `moveCurrentFileToFolder`: `ok` carries the vault and
the success (or already-exists) notice, `error` the vault at the throw and
the error message. -/
def moveBody (hf : HostFail) (nowMs : Nat) (v : Vault) (f : ActiveFile)
    (targetFolder : List Char) (addPrefix : Bool) :
    Except (Vault × List Char) (Vault × List Char) :=
  match ensureFolderExists hf v targetFolder with
  | Except.error e => Except.error e
  | Except.ok v1 =>
    let newFileName := processFilenameWithPrefix nowMs f.name addPrefix
    let newPath := joinPath targetFolder newFileName
    if newPath ∈ v1.entries then
      Except.ok (v1, "File already exists at ".data ++ newPath)
    else
      match hf.rename with
      | some m => Except.error (v1, m)
      | none =>
        Except.ok (renameEntry v1 f.path newPath,
          "Moved \"".data ++ f.name ++ "\" to ".data ++
            (if targetFolder = [] then "vault root".data else targetFolder))

/-- The `moveCurrentFileToFolder` command callback. -/
def moveCurrentFileToFolder (hf : HostFail) (nowMs : Nat) (v : Vault)
    (active : Option ActiveFile) (targetFolder : List Char) (addPrefix : Bool) :
    CmdResult :=
  match active with
  | none => ⟨v, ["No active file to move".data], []⟩
  | some f =>
    if !f.isTFile then ⟨v, ["Active item is not a file".data], []⟩
    else
      match moveBody hf nowMs v f targetFolder addPrefix with
      | Except.ok (v2, notice) => ⟨v2, [notice], []⟩
      | Except.error (v2, m) =>
        ⟨v2, ["Error moving file: ".data ++ m], ["Error moving file: ".data ++ m]⟩

/-- The `try`-block of `duplicateFileToFolder`. The conflict loop is run
with the fuel bound proven sufficient in `dupResolvePath_spec`; its `none`
branch is unreachable. -/
def dupBody (hf : HostFail) (nowMs : Nat) (v : Vault) (f : ActiveFile)
    (targetFolder : List Char) (addPrefix : Bool) :
    Except (Vault × List Char) (Vault × List Char) :=
  match ensureFolderExists hf v targetFolder with
  | Except.error e => Except.error e
  | Except.ok v1 =>
    match hf.readFile with
    | some m => Except.error (v1, m)
    | none =>
      let processedFileName := processFilenameWithPrefix nowMs f.name addPrefix
      match dupResolvePath v1.entries targetFolder processedFileName with
      | none => Except.error (v1, "conflict loop budget exhausted".data)
      | some newPath =>
        match hf.createFile with
        | some m => Except.error (v1, m)
        | none =>
          let v2 : Vault := ⟨newPath :: v1.entries⟩
          match hf.openFile with
          | some m => Except.error (v2, m)
          | none =>
            Except.ok (v2,
              "Duplicated \"".data ++ f.name ++ "\" to ".data ++
                (if targetFolder = [] then "vault root".data else targetFolder))

/-- The `duplicateFileToFolder` command callback. -/
def duplicateFileToFolder (hf : HostFail) (nowMs : Nat) (v : Vault)
    (active : Option ActiveFile) (targetFolder : List Char) (addPrefix : Bool) :
    CmdResult :=
  match active with
  | none => ⟨v, ["No active file to duplicate".data], []⟩
  | some f =>
    if !f.isTFile then ⟨v, ["Active item is not a file".data], []⟩
    else
      match dupBody hf nowMs v f targetFolder addPrefix with
      | Except.ok (v2, notice) => ⟨v2, [notice], []⟩
      | Except.error (v2, m) =>
        ⟨v2, ["Error duplicating file: ".data ++ m], ["Error duplicating file: ".data ++ m]⟩

/-- The `moveToParentFolder` command callback: strips the last two path
segments and moves there (the root when that leaves nothing). JS omits the
`addPrefix` argument, so it defaults to `false`. -/
def moveToParentFolder (hf : HostFail) (nowMs : Nat) (v : Vault)
    (active : Option ActiveFile) : CmdResult :=
  match active with
  | none => ⟨v, ["No active file to move".data], []⟩
  | some f =>
    let currentPath := f.path
    let parentPath := substringTo currentPath (jsLastIndexOf '/' currentPath)
    let grandParentPath := substringTo parentPath (jsLastIndexOf '/' parentPath)
    if grandParentPath = [] then
      moveCurrentFileToFolder hf nowMs v active [] false
    else
      moveCurrentFileToFolder hf nowMs v active grandParentPath false

theorem ensureFolderExists_ok_entries (hf : HostFail) (v v1 : Vault) (tf : List Char)
    (h : ensureFolderExists hf v tf = Except.ok v1) :
    v1.entries = v.entries ∨ v1.entries = tf :: v.entries := by
  unfold ensureFolderExists at h
  by_cases h1 : tf = []
  · rw [if_pos h1] at h
    simp only [Except.ok.injEq] at h
    subst h
    exact Or.inl rfl
  · rw [if_neg h1] at h
    by_cases h2 : tf ∈ v.entries
    · rw [if_pos h2] at h
      simp only [Except.ok.injEq] at h
      subst h
      exact Or.inl rfl
    · rw [if_neg h2] at h
      cases hc : hf.createFolder with
      | some m => rw [hc] at h; cases h
      | none =>
        rw [hc] at h
        simp only [Except.ok.injEq] at h
        subst h
        exact Or.inr rfl

/-! ### The claims -/

/-- C1: for every target folder, desired file name and finite set of
occupied paths, the conflict loop of `duplicateFileToFolder` returns a path
at which the existence check is negative, trying the plain destination
first and then the numbered candidates `base 1.ext`, `base 2.ext`, … with
the counter incremented by one each iteration until a free path is found;
the loop terminates because the occupied set is finite. -/
theorem claim_C1_conflict_loop (occ : List (List Char))
    (targetFolder processedFileName : List Char) :
    ∃ p, dupResolvePath occ targetFolder processedFileName = some p ∧ p ∉ occ ∧
      (p = joinPath targetFolder processedFileName ∨
        (joinPath targetFolder processedFileName ∈ occ ∧
          ∃ k, 1 ≤ k ∧ p = dupCandidate targetFolder processedFileName k ∧
            ∀ j, 1 ≤ j → j < k → dupCandidate targetFolder processedFileName j ∈ occ)) :=
  dupResolvePath_spec occ targetFolder processedFileName

/-- C2: when the stem (extension removed) has its first `_` at a positive
index — stem `= A ++ '_' :: B` with `A` nonempty and underscore-free — the
prefix transform with `addPrefix = true` removes exactly the segment up to
and including that first `_` and prepends the cepoch prefix: the rest `B`
(which may itself contain further `_` separators) is kept verbatim. -/
theorem claim_C2_strips_one_segment (nowMs : Nat) (name A B : List Char)
    (hA : A ≠ []) (hAu : '_' ∉ A) (hstem : stemOf name = A ++ '_' :: B) :
    processFilenameWithPrefix nowMs name true =
      cepochOf nowMs ++ '_' :: (B ++ extOf name) := by
  rw [processFilename_shape, prefixBaseName_eq, hstem, stripFirstSeg_at_pos A B hA hAu]

theorem claim_C2_witness :
    "ab".data ≠ [] ∧ '_' ∉ "ab".data ∧
    stemOf "ab_cd_e.md".data = "ab".data ++ '_' :: "cd_e".data ∧
    processFilenameWithPrefix 0 "ab_cd_e.md".data true =
      cepochOf 0 ++ '_' :: ("cd_e".data ++ extOf "ab_cd_e.md".data) :=
  ⟨by decide, by decide, by decide,
    claim_C2_strips_one_segment 0 "ab_cd_e.md".data "ab".data "cd_e".data
      (by decide) (by decide) (by decide)⟩

/-- C3: at a fixed timestamp (same whole second since epoch), applying the
prefix transform with `addPrefix = true` twice gives the same result as
applying it once. -/
theorem claim_C3_idempotent_same_second (ms₁ ms₂ : Nat) (name : List Char)
    (h : ms₁ / 1000 = ms₂ / 1000) :
    processFilenameWithPrefix ms₂ (processFilenameWithPrefix ms₁ name true) true =
      processFilenameWithPrefix ms₁ name true := by
  have hcep : cepochOf ms₂ = cepochOf ms₁ := by
    unfold cepochOf
    rw [h]
  have hfix := parse_of_prefixed (cepochOf ms₁) (prefixBaseName name) (extOf name)
    (cepochOf_ne_nil ms₁) (cepochOf_not_special ms₁).1 (cepochOf_not_special ms₁).2.1
    (parse_shape name)
  rw [processFilename_shape ms₁ name, processFilename_shape ms₂, hfix, hcep]

theorem claim_C3_witness :
    (0 : Nat) / 1000 = 999 / 1000 ∧
    processFilenameWithPrefix 999 (processFilenameWithPrefix 0 "a.md".data true) true =
      processFilenameWithPrefix 0 "a.md".data true :=
  ⟨by decide, claim_C3_idempotent_same_second 0 999 "a.md".data (by decide)⟩

/-- C4: with `addPrefix = true` the prepended prefix is the current time in
whole seconds since epoch, written in base 36 and reversed, joined to the
(stripped) base name by `_`; the output is a function of the name and the
timestamp only, and timestamps in the same second give the same output. -/
theorem claim_C4_prefix_encoding (nowMs : Nat) (name : List Char) :
    processFilenameWithPrefix nowMs name true =
      (jsToString 36 (nowMs / 1000)).reverse ++
        '_' :: (prefixBaseName name ++ extOf name) ∧
    ∀ ms', nowMs / 1000 = ms' / 1000 →
      processFilenameWithPrefix nowMs name true =
        processFilenameWithPrefix ms' name true := by
  constructor
  · rfl
  · intro ms' h
    rw [processFilename_shape, processFilename_shape]
    unfold cepochOf
    rw [h]

theorem claim_C4_witness :
    (1500 : Nat) / 1000 = 1999 / 1000 ∧
    processFilenameWithPrefix 1500 "b.md".data true =
      processFilenameWithPrefix 1999 "b.md".data true :=
  ⟨by decide, (claim_C4_prefix_encoding 1500 "b.md".data).2 1999 (by decide)⟩

/-- C5: the destination path built by `moveCurrentFileToFolder` and
`duplicateFileToFolder` is the bare file name (no leading separator) when
the target folder is empty, and ``targetFolder/fileName`` otherwise. -/
theorem claim_C5_destination_path (targetFolder fileName : List Char) :
    (targetFolder = [] → joinPath targetFolder fileName = fileName) ∧
    (targetFolder ≠ [] →
      joinPath targetFolder fileName = targetFolder ++ '/' :: fileName) := by
  constructor
  · intro h
    simp [joinPath, h]
  · intro h
    simp [joinPath, h]

theorem claim_C5_witness :
    joinPath [] "n.md".data = "n.md".data ∧
    joinPath "Archive".data "n.md".data = "Archive".data ++ '/' :: "n.md".data :=
  ⟨(claim_C5_destination_path [] "n.md".data).1 rfl,
   (claim_C5_destination_path "Archive".data "n.md".data).2 (by decide)⟩

/-- C6: the claim says that for a name with no `.` the parse treats the
extension as empty and numbers the alternatives `name 1`, `name 2`, …; the
code instead sets the extension to the whole name
(JS `substring(-1)` clamps to `0` and returns the whole string, so the
`|| ""` fallback never fires), producing `name 1name`: evaluated here on
the name `notes` duplicated into folder `F` already holding `F/notes`. -/
theorem claim_C6_no_dot_evaluation :
    dupBaseName "notes".data = "notes".data ∧
    dupExtension "notes".data = "notes".data ∧
    dupResolvePath ["F/notes".data] "F".data "notes".data =
      some "F/notes 1notes".data := by
  decide

/-- C7: when a file already exists at the computed destination path,
`moveCurrentFileToFolder` reports the `File already exists` notice and
returns without performing a rename; the vault is unchanged apart from the
folder creation already done by `ensureFolderExists`, and the collision is
not an error (nothing is thrown or logged). -/
theorem claim_C7_collision_aborts_move (hf : HostFail) (nowMs : Nat) (v v1 : Vault)
    (f : ActiveFile) (targetFolder : List Char) (ap : Bool)
    (hfile : f.isTFile = true)
    (hens : ensureFolderExists hf v targetFolder = Except.ok v1)
    (hex : joinPath targetFolder (processFilenameWithPrefix nowMs f.name ap) ∈ v1.entries) :
    moveCurrentFileToFolder hf nowMs v (some f) targetFolder ap =
      ⟨v1, ["File already exists at ".data ++
        joinPath targetFolder (processFilenameWithPrefix nowMs f.name ap)], []⟩ ∧
    (v1.entries = v.entries ∨ v1.entries = targetFolder :: v.entries) := by
  refine ⟨?_, ensureFolderExists_ok_entries hf v v1 targetFolder hens⟩
  have hmb : moveBody hf nowMs v f targetFolder ap =
      Except.ok (v1, "File already exists at ".data ++
        joinPath targetFolder (processFilenameWithPrefix nowMs f.name ap)) := by
    unfold moveBody
    rw [hens]
    simp only [hex, if_true]
  simp only [moveCurrentFileToFolder, hfile, Bool.not_true, Bool.false_eq_true,
    if_false, hmb]

theorem claim_C7_witness :
    moveCurrentFileToFolder ⟨none, none, none, none, none⟩ 0 ⟨["n.md".data]⟩
        (some ⟨"n.md".data, "n.md".data, true⟩) [] false =
      ⟨⟨["n.md".data]⟩, ["File already exists at ".data ++
        joinPath [] (processFilenameWithPrefix 0 "n.md".data false)], []⟩ :=
  (claim_C7_collision_aborts_move ⟨none, none, none, none, none⟩ 0 ⟨["n.md".data]⟩
    ⟨["n.md".data]⟩ ⟨"n.md".data, "n.md".data, true⟩ [] false rfl rfl (by decide)).1

/-- C9: for a name whose only `.` is at index 0 (such as `.gitignore`), the
conflict parse of `duplicateFileToFolder` assigns both the base name and
the extension the entire name, so the first numbered alternative is the
full name, a space, `1`, and the full name again. -/
theorem claim_C9_dot_initial_name (rest : List Char) (h : '.' ∉ rest) :
    dupBaseName ('.' :: rest) = '.' :: rest ∧
    dupExtension ('.' :: rest) = '.' :: rest ∧
    numberedName (dupBaseName ('.' :: rest)) (dupExtension ('.' :: rest)) 1 =
      ('.' :: rest) ++ ' ' :: '1' :: ('.' :: rest) := by
  have hidx : jsLastIndexOf '.' ('.' :: rest) = ((0 : Nat) : Int) := by
    have := jsLastIndexOf_append_cons '.' [] rest h
    rw [List.nil_append] at this
    exact this
  have hbase : dupBaseName ('.' :: rest) = '.' :: rest := by
    unfold dupBaseName
    rw [hidx, substringTo_natCast]
    simp
  have hext : dupExtension ('.' :: rest) = '.' :: rest := by
    unfold dupExtension
    rw [hidx, substringFrom_natCast]
    simp
  refine ⟨hbase, hext, ?_⟩
  rw [hbase, hext]
  unfold numberedName
  have h1 : jsToString 10 1 = ['1'] := by decide
  rw [h1]
  rfl

theorem claim_C9_witness :
    dupBaseName ('.' :: "gitignore".data) = '.' :: "gitignore".data ∧
    dupExtension ('.' :: "gitignore".data) = '.' :: "gitignore".data ∧
    numberedName (dupBaseName ('.' :: "gitignore".data))
        (dupExtension ('.' :: "gitignore".data)) 1 =
      ('.' :: "gitignore".data) ++ ' ' :: '1' :: ('.' :: "gitignore".data) :=
  claim_C9_dot_initial_name "gitignore".data (by decide)

/-- C10: for an active file at the vault root (no `/` in its path),
`moveToParentFolder` computes the root as the target, the destination
equals the file's own path, the existence check finds the file itself, and
the command reports the `File already exists` notice, leaving the vault
unchanged. -/
theorem claim_C10_root_parent_collision (hf : HostFail) (nowMs : Nat) (v : Vault)
    (f : ActiveFile) (hfile : f.isTFile = true) (hroot : '/' ∉ f.path)
    (hname : f.name = f.path) (hmem : f.path ∈ v.entries) :
    moveToParentFolder hf nowMs v (some f) =
      ⟨v, ["File already exists at ".data ++ f.path], []⟩ := by
  have hmb : moveBody hf nowMs v f [] false =
      Except.ok (v, "File already exists at ".data ++ f.path) := by
    unfold moveBody
    have hens : ensureFolderExists hf v [] = Except.ok v := rfl
    rw [hens]
    have hpfn : ∀ s : List Char, processFilenameWithPrefix nowMs s false = s :=
      fun s => rfl
    have hjoin : ∀ s : List Char, joinPath [] s = s := fun s => rfl
    simp only [hname, hpfn, hjoin, hmem, if_true]
  have hred : moveToParentFolder hf nowMs v (some f) =
      moveCurrentFileToFolder hf nowMs v (some f) [] false := by
    simp only [moveToParentFolder]
    rw [jsLastIndexOf_eq_neg_one '/' f.path hroot, substringTo_neg_one]
    rw [jsLastIndexOf_eq_neg_one '/' [] (List.not_mem_nil '/'), substringTo_neg_one]
    rw [if_pos rfl]
  rw [hred]
  simp only [moveCurrentFileToFolder, hfile, Bool.not_true, Bool.false_eq_true,
    if_false, hmb]

theorem claim_C10_witness :
    moveToParentFolder ⟨none, none, none, none, none⟩ 0 ⟨["n.md".data]⟩
        (some ⟨"n.md".data, "n.md".data, true⟩) =
      ⟨⟨["n.md".data]⟩, ["File already exists at ".data ++ "n.md".data], []⟩ :=
  claim_C10_root_parent_collision ⟨none, none, none, none, none⟩ 0 ⟨["n.md".data]⟩
    ⟨"n.md".data, "n.md".data, true⟩ rfl (by decide) rfl (by decide)

/-- C8 as stated is false: the missing-active-file failure of
`moveCurrentFileToFolder` is surfaced as a notice but nothing is logged
(the early-return guards never call `console.error`; only the `catch`
branch does). -/
theorem claim_C8_counterexample :
    (moveCurrentFileToFolder ⟨none, none, none, none, none⟩ 0 ⟨[]⟩ none [] false).notices =
      ["No active file to move".data] ∧
    (moveCurrentFileToFolder ⟨none, none, none, none, none⟩ 0 ⟨[]⟩ none [] false).logs =
      [] := by
  decide

/-- C8 (amended): every failure of the two commands is surfaced as exactly
one user-facing notice and the callback returns normally; exceptions thrown
by the host calls inside the `try` block are additionally caught and
logged, while the missing-active-file and not-a-file guards return early
with a notice but without logging. -/
theorem claim_C8_notice_and_catch (hf : HostFail) (nowMs : Nat) (v : Vault)
    (active : Option ActiveFile) (targetFolder : List Char) (ap : Bool) :
    (moveCurrentFileToFolder hf nowMs v active targetFolder ap).notices.length = 1 ∧
    (duplicateFileToFolder hf nowMs v active targetFolder ap).notices.length = 1 ∧
    (∀ f v2 m, active = some f → f.isTFile = true →
      moveBody hf nowMs v f targetFolder ap = Except.error (v2, m) →
      moveCurrentFileToFolder hf nowMs v active targetFolder ap =
        ⟨v2, ["Error moving file: ".data ++ m], ["Error moving file: ".data ++ m]⟩) ∧
    (∀ f v2 m, active = some f → f.isTFile = true →
      dupBody hf nowMs v f targetFolder ap = Except.error (v2, m) →
      duplicateFileToFolder hf nowMs v active targetFolder ap =
        ⟨v2, ["Error duplicating file: ".data ++ m],
          ["Error duplicating file: ".data ++ m]⟩) := by
  refine ⟨?_, ?_, ?_, ?_⟩
  · cases active with
    | none => rfl
    | some f =>
      by_cases hft : f.isTFile = true
      · cases hmb : moveBody hf nowMs v f targetFolder ap with
        | ok p => cases p; simp [moveCurrentFileToFolder, hft, hmb]
        | error p => cases p; simp [moveCurrentFileToFolder, hft, hmb]
      · have hft' : f.isTFile = false := by
          cases h : f.isTFile
          · rfl
          · exact absurd h hft
        simp [moveCurrentFileToFolder, hft']
  · cases active with
    | none => rfl
    | some f =>
      by_cases hft : f.isTFile = true
      · cases hmb : dupBody hf nowMs v f targetFolder ap with
        | ok p => cases p; simp [duplicateFileToFolder, hft, hmb]
        | error p => cases p; simp [duplicateFileToFolder, hft, hmb]
      · have hft' : f.isTFile = false := by
          cases h : f.isTFile
          · rfl
          · exact absurd h hft
        simp [duplicateFileToFolder, hft']
  · intro f v2 m ha hft hmb
    subst ha
    simp [moveCurrentFileToFolder, hft, hmb]
  · intro f v2 m ha hft hmb
    subst ha
    simp [duplicateFileToFolder, hft, hmb]

theorem claim_C8_witness :
    moveCurrentFileToFolder ⟨none, none, none, some "io".data, none⟩ 0 ⟨[]⟩
        (some ⟨"n.md".data, "n.md".data, true⟩) "F".data false =
      ⟨⟨["F".data]⟩, ["Error moving file: ".data ++ "io".data],
        ["Error moving file: ".data ++ "io".data]⟩ ∧
    duplicateFileToFolder ⟨none, some "boom".data, none, none, none⟩ 0 ⟨[]⟩
        (some ⟨"n.md".data, "n.md".data, true⟩) [] false =
      ⟨⟨[]⟩, ["Error duplicating file: ".data ++ "boom".data],
        ["Error duplicating file: ".data ++ "boom".data]⟩ :=
  ⟨(claim_C8_notice_and_catch ⟨none, none, none, some "io".data, none⟩ 0 ⟨[]⟩
      (some ⟨"n.md".data, "n.md".data, true⟩) "F".data false).2.2.1
      ⟨"n.md".data, "n.md".data, true⟩ ⟨["F".data]⟩ "io".data rfl rfl (by rfl),
   (claim_C8_notice_and_catch ⟨none, some "boom".data, none, none, none⟩ 0 ⟨[]⟩
      (some ⟨"n.md".data, "n.md".data, true⟩) [] false).2.2.2
      ⟨"n.md".data, "n.md".data, true⟩ ⟨[]⟩ "boom".data rfl rfl (by rfl)⟩

end QuickMove
